import Mathlib

/-!
Shallow embedding of `nengo/utils/function_space.py`.

Conventions of the embedding:
* numpy floating-point scalars are modelled as exact numbers: grid arithmetic
  (`np.arange`, shapes, `dx`) over `ℚ`, linear algebra over `ℝ`.
* a 2-d numpy array is a row-major `List (List _)`; a 1-d array is a `List _`.
* `np.linalg.svd` is external library code; its outputs `U`, `S` are passed to
  the constructor as data, and theorems assume only what SVD guarantees
  (orthonormal columns of `U`).  `V` is discarded exactly as in the source.
* a raised exception is modelled as `Option.none` where a claim needs it.
-/

set_option maxHeartbeats 1000000

/-- Dot product of two real lists (the scalar core of `np.dot`). -/
def dotL (a b : List ℝ) : ℝ :=
  (List.zipWith (fun x y => x * y) a b).sum

/-- Number of columns of a row-major matrix, i.e. numpy `shape[1]`. -/
def numColsL {α : Type} (M : List (List α)) : ℕ := (M.headD []).length

/-- Column `j` of a row-major real matrix (missing entries read as 0). -/
def colL (M : List (List ℝ)) (j : ℕ) : List ℝ := M.map (fun row => row.getD j 0)

/-- numpy matrix transpose of a row-major matrix. -/
def transposeL (M : List (List ℝ)) : List (List ℝ) :=
  (List.range (numColsL M)).map (fun j => colL M j)

/-- `np.dot` of two 2-d arrays. -/
def matMulL (A B : List (List ℝ)) : List (List ℝ) :=
  A.map (fun row => (List.range (numColsL B)).map (fun j => dotL row (colL B j)))

/-- `np.dot` of a 1-d array with a 2-d array. -/
def vecMatL (v : List ℝ) (B : List (List ℝ)) : List ℝ :=
  (List.range (numColsL B)).map (fun j => dotL v (colL B j))

/-- `np.dot` of a 2-d array with a 1-d array. -/
def matVecL (A : List (List ℝ)) (v : List ℝ) : List ℝ :=
  A.map (fun row => dotL row v)

/-- Elementwise scaling of a 2-d array by a scalar on the right. -/
def scaleMatL (c : ℝ) (M : List (List ℝ)) : List (List ℝ) :=
  M.map (fun row => row.map (fun x => x * c))

/-- The identity matrix of size `n` as a row-major list matrix. -/
def idMat (n : ℕ) : List (List ℝ) :=
  (List.range n).map (fun i => (List.range n).map (fun j => if i = j then (1 : ℝ) else 0))

/-- Shallow model of the numpy ndarray values appearing in this module:
0-, 1- and 2-dimensional real arrays. -/
inductive NPArr : Type where
  | scal (x : ℝ)
  | vec (v : List ℝ)
  | mat (m : List (List ℝ))

/-- `arr.T`: transpose; a no-op on 0-d and 1-d arrays, as in numpy. -/
def NPArr.transpose : NPArr → NPArr
  | scal x => scal x
  | vec v => vec v
  | mat m => mat (transposeL m)

/-- `arr * c`: elementwise scalar multiplication. -/
def NPArr.scale (c : ℝ) : NPArr → NPArr
  | scal x => scal (x * c)
  | vec v => vec (v.map (fun x => x * c))
  | mat m => mat (scaleMatL c m)

/-- `np.dot` on the array shapes this module uses. -/
def npdot : NPArr → NPArr → NPArr
  | NPArr.scal x, b => NPArr.scale x b
  | a, NPArr.scal x => NPArr.scale x a
  | NPArr.vec a, NPArr.vec b => NPArr.scal (dotL a b)
  | NPArr.vec a, NPArr.mat B => NPArr.vec (vecMatL a B)
  | NPArr.mat A, NPArr.vec b => NPArr.vec (matVecL A b)
  | NPArr.mat A, NPArr.mat B => NPArr.mat (matMulL A B)

/-- `arr.shape[0]`: leading dimension (a 0-d array has none; unused here). -/
def NPArr.shape0 : NPArr → ℕ
  | scal _ => 0
  | vec v => v.length
  | mat m => m.length

/-- `arr.ravel()` in C order, used to model `reshape`. -/
def NPArr.flat : NPArr → List ℝ
  | scal x => [x]
  | vec v => v
  | mat m => m.flatten

/-- `arr.reshape((n,))`: succeeds exactly when the total size matches,
otherwise numpy raises (modelled as `none`). -/
def reshapeFlat (a : NPArr) (n : ℕ) : Option NPArr :=
  if a.flat.length = n then some (NPArr.vec a.flat) else none

/-- `np.arange(start, stop, step)` over exact rationals: numpy produces
`ceil((stop - start) / step)` points `start, start + step, ...`. -/
def arange (start stop step : ℚ) : List ℚ :=
  (List.range (⌈(stop - start) / step⌉.toNat)).map (fun k : ℕ => start + (k : ℚ) * step)

/-- Each element of the list repeated `inner` times in place (a building block
of a raveled broadcast meshgrid output). -/
def repEach (inner : ℕ) : List ℚ → List ℚ
  | [] => []
  | x :: xs => List.replicate inner x ++ repEach inner xs

/-- A raveled `np.meshgrid` output: the axis with each element repeated
`inner` times, the whole sequence tiled `outer` times (the C-order ravel of an
axis broadcast along one dimension of a `outer * axis.length * inner` cube). -/
def tileRep (axis : List ℚ) (outer inner : ℕ) : List ℚ :=
  (List.replicate outer (repEach inner axis)).flatten

/-- The mesh axis along which the k-th `np.meshgrid` input varies under the
default 'xy' indexing: inputs 0 and 1 are swapped, the rest are in order. -/
def meshAxis (k : ℕ) : ℕ := if k = 0 then 1 else if k = 1 then 0 else k

/-- `uniform_cube` from the source.  For `domain_dim == 1` the ticks are
reshaped to a column vector.  Otherwise the rows are the raveled meshgrid
outputs stacked by `np.vstack` (note: no transpose in the source); the raveled
k-th output of an n-point meshgrid over `domain_dim` equal axes equals the axis
with each element repeated `n ^ (domain_dim - 1 - meshAxis k)` times, tiled
`n ^ meshAxis k` times. -/
def uniform_cube (domain_dim : ℕ) (radius d : ℚ) : List (List ℚ) :=
  if domain_dim = 1 then
    (arange (-radius) radius d).map (fun x => [x])
  else
    (List.range domain_dim).map (fun k =>
      tileRep (arange (-radius) radius d)
        ((arange (-radius) radius d).length ^ meshAxis k)
        ((arange (-radius) radius d).length ^ (domain_dim - 1 - meshAxis k)))

/-- `function_values(functions, domain_points)`: `values[j, i]` is function `i`
evaluated at point `j`. -/
def function_values {P : Type} (functions : List (P → ℝ)) (domain_points : List P) :
    List (List ℝ) :=
  domain_points.map (fun point => functions.map (fun f => f point))

/-- `generate_functions(function, n, *arg_dists)`: each distribution is sampled
once with `sample(n)` up front; the i-th produced callable binds `i` by value
(the source uses the `i=i` default-argument idiom) and applies the base
function to the point followed by the i-th entry of every sample sequence. -/
def generate_functions {P : Type} (function : P → List ℝ → ℝ) (n : ℕ)
    (arg_dists : List (ℕ → List ℝ)) : List (P → ℝ) :=
  let arg_samples := arg_dists.map (fun arg_dist => arg_dist n)
  (List.range n).map (fun i => fun point =>
    function point (arg_samples.map (fun arg_sample => arg_sample.getD i 0)))

/-- The `Function_Space` object: its fields after `__init__`. -/
structure Function_Space : Type where
  domain : List (List ℚ)
  fns : List (List ℝ)
  dx : ℚ
  n_basis : ℕ
  U : List (List ℝ)
  S : List ℝ
  basis : List (List ℝ)

/-- The basis assignment `self.U[:, :n_basis] / np.sqrt(self.dx)` shared
verbatim by `__init__` and `select_top_basis`. -/
noncomputable def mkBasis (U : List (List ℝ)) (nb : ℕ) (dx : ℚ) : List (List ℝ) :=
  U.map (fun row => (row.take nb).map (fun x => x / Real.sqrt (dx : ℝ)))

/-- `Function_Space.__init__`.  The SVD outputs `U` (left singular vectors) and
`S` (singular values) of `self.fns` are supplied as data (numpy library code);
`V` is discarded as in the source. -/
noncomputable def mkFunctionSpace (fn : List ℚ → List ℝ → ℝ) (domain_dim : ℕ)
    (dist_args : List (ℕ → List ℝ)) (n_functions n_basis : ℕ) (d radius : ℚ)
    (U : List (List ℝ)) (S : List ℝ) : Function_Space :=
  { domain := uniform_cube domain_dim radius d
    fns := function_values (generate_functions fn n_functions dist_args)
      (uniform_cube domain_dim radius d)
    dx := d ^ numColsL (uniform_cube domain_dim radius d)
    n_basis := n_basis
    U := U
    S := S
    basis := mkBasis U n_basis (d ^ numColsL (uniform_cube domain_dim radius d)) }

/-- `select_top_basis`: sets `n_basis` and re-slices the stored `U`. -/
noncomputable def Function_Space.select_top_basis (self : Function_Space)
    (n_basis : ℕ) : Function_Space :=
  { self with n_basis := n_basis, basis := mkBasis self.U n_basis self.dx }

/-- `get_basis`. -/
def Function_Space.get_basis (self : Function_Space) : List (List ℝ) := self.basis

/-- `singular_values`. -/
def Function_Space.singular_values (self : Function_Space) : List ℝ := self.S

/-- `reconstruct`: `np.dot(self.basis, coefficients)`. -/
def Function_Space.reconstruct (self : Function_Space) (coefficients : NPArr) : NPArr :=
  npdot (NPArr.mat self.basis) coefficients

/-- `encoder_coeffs`: `np.dot(self.fns.T, self.basis) * self.dx`. -/
def Function_Space.encoder_coeffs (self : Function_Space) : NPArr :=
  NPArr.scale ((self.dx : ℝ)) (npdot (NPArr.mat self.fns).transpose (NPArr.mat self.basis))

/-- `signal_coeffs`: `np.dot(signal.T, self.basis) * self.dx`, reshaped to a
flat vector when the leading dimension of the result is 1. -/
def Function_Space.signal_coeffs (self : Function_Space) (signal : NPArr) : Option NPArr :=
  if (NPArr.scale ((self.dx : ℝ)) (npdot signal.transpose (NPArr.mat self.basis))).shape0 = 1
  then reshapeFlat (NPArr.scale ((self.dx : ℝ)) (npdot signal.transpose (NPArr.mat self.basis))) self.n_basis
  else some (NPArr.scale ((self.dx : ℝ)) (npdot signal.transpose (NPArr.mat self.basis)))

/-! ### Generic list lemmas used throughout -/

lemma getD_range_map {α : Type} (g : ℕ → α) (d : α) {n j : ℕ} (h : j < n) :
    ((List.range n).map g).getD j d = g j := by
  rw [List.getD_eq_getElem?_getD, List.getElem?_map, List.getElem?_range h]
  rfl

lemma getD_take_of_lt {α : Type} (l : List α) (d : α) {k j : ℕ} (h : j < k) :
    (l.take k).getD j d = l.getD j d := by
  rw [List.getD_eq_getElem?_getD, List.getD_eq_getElem?_getD, List.getElem?_take, if_pos h]

lemma getD_map_eq {α β : Type} (f : α → β) (l : List α) (dA : α) (j : ℕ) :
    (l.map f).getD j (f dA) = f (l.getD j dA) := by
  induction l generalizing j with
  | nil => simp
  | cons x xs ih => cases j <;> simp [ih]

lemma list_eq_of_getD {α : Type} (a b : List α) (d : α) (hlen : a.length = b.length)
    (h : ∀ t, t < a.length → a.getD t d = b.getD t d) : a = b := by
  induction a generalizing b with
  | nil => cases b <;> simp_all
  | cons x xs ih =>
    cases b with
    | nil => simp_all
    | cons y ys =>
      have hx := h 0 (by simp)
      simp only [List.getD_cons_zero] at hx
      subst hx
      have : xs = ys := by
        apply ih ys (by simpa using hlen)
        intro t ht
        have := h (t + 1) (by simpa using Nat.succ_lt_succ ht)
        simpa using this
      rw [this]

/-! ### Lemmas about `arange`, `repEach`, `tileRep`, `uniform_cube` -/

lemma length_arange (start stop step : ℚ) :
    (arange start stop step).length = ⌈(stop - start) / step⌉.toNat := by
  simp [arange]

lemma getD_arange (start stop step : ℚ) {k : ℕ} (hk : k < ⌈(stop - start) / step⌉.toNat) :
    (arange start stop step).getD k 0 = start + k * step := by
  unfold arange
  exact getD_range_map _ 0 hk

lemma length_repEach (inner : ℕ) (l : List ℚ) :
    (repEach inner l).length = l.length * inner := by
  induction l with
  | nil => simp [repEach]
  | cons x xs ih => simp [repEach, ih, Nat.succ_mul, Nat.add_comm]

lemma getD_repEach (inner : ℕ) (l : List ℚ) {s : ℕ} (hs : s < l.length * inner) :
    (repEach inner l).getD s 0 = l.getD (s / inner) 0 := by
  induction l generalizing s with
  | nil => simp at hs
  | cons x xs ih =>
    have hipos : 0 < inner := by
      rcases Nat.eq_zero_or_pos inner with h | h
      · subst h; simp at hs
      · exact h
    rw [repEach]
    by_cases h : s < inner
    · rw [List.getD_append _ _ _ _ (by simpa using h)]
      rw [Nat.div_eq_of_lt h, List.getD_cons_zero]
      rw [List.getD_eq_getElem _ _ (by simpa using h)]
      simp
    · have hle : inner ≤ s := Nat.le_of_not_lt h
      rw [List.getD_append_right _ _ _ _ (by simpa using hle)]
      simp only [List.length_replicate]
      have hs' : s - inner < xs.length * inner := by
        have : s < xs.length * inner + inner := by
          have := hs
          simp [Nat.succ_mul] at this
          omega
        omega
      rw [ih hs']
      have hdiv : s / inner = (s - inner) / inner + 1 := Nat.div_eq_sub_div hipos hle
      rw [hdiv, List.getD_cons_succ]

lemma length_flatten_replicate (o : ℕ) (blk : List ℚ) :
    ((List.replicate o blk).flatten).length = o * blk.length := by
  induction o with
  | zero => simp
  | succ o ih => simp [List.replicate_succ, ih, Nat.succ_mul, Nat.add_comm]

lemma getD_flatten_replicate (o : ℕ) (blk : List ℚ) {f : ℕ} (hf : f < o * blk.length) :
    ((List.replicate o blk).flatten).getD f 0 = blk.getD (f % blk.length) 0 := by
  induction o generalizing f with
  | zero => simp at hf
  | succ o ih =>
    rw [List.replicate_succ, List.flatten_cons]
    by_cases h : f < blk.length
    · rw [List.getD_append _ _ _ _ h, Nat.mod_eq_of_lt h]
    · have hle : blk.length ≤ f := Nat.le_of_not_lt h
      rw [List.getD_append_right _ _ _ _ hle]
      have hf' : f - blk.length < o * blk.length := by
        have : f < o * blk.length + blk.length := by
          have := hf
          simp [Nat.succ_mul] at this
          omega
        omega
      rw [ih hf', Nat.mod_eq_sub_mod hle]

lemma length_tileRep (axis : List ℚ) (o i : ℕ) :
    (tileRep axis o i).length = o * (axis.length * i) := by
  simp [tileRep, length_flatten_replicate, length_repEach]

lemma getD_tileRep (axis : List ℚ) (o i : ℕ) {f : ℕ} (hf : f < o * (axis.length * i)) :
    (tileRep axis o i).getD f 0 = axis.getD (f / i % axis.length) 0 := by
  unfold tileRep
  rw [getD_flatten_replicate o _ (by simpa [length_repEach] using hf)]
  have hpos : 0 < axis.length * i := by
    rcases Nat.eq_zero_or_pos (axis.length * i) with h | h
    · rw [h, Nat.mul_zero] at hf; simp at hf
    · exact h
  rw [length_repEach]
  rw [getD_repEach i axis (Nat.mod_lt _ hpos)]
  congr 1
  rw [Nat.mul_comm axis.length i]
  exact Nat.mod_mul_right_div_self f i axis.length

lemma length_uniform_cube_ne_one {dd : ℕ} (h : dd ≠ 1) (radius d : ℚ) :
    (uniform_cube dd radius d).length = dd := by
  simp [uniform_cube, h]

lemma getD_uniform_cube_row {dd : ℕ} (h : dd ≠ 1) (radius d : ℚ) {k : ℕ} (hk : k < dd) :
    (uniform_cube dd radius d).getD k []
      = tileRep (arange (-radius) radius d)
          ((arange (-radius) radius d).length ^ meshAxis k)
          ((arange (-radius) radius d).length ^ (dd - 1 - meshAxis k)) := by
  simp only [uniform_cube, if_neg h]
  exact getD_range_map _ [] hk

lemma meshAxis_le {dd k : ℕ} (h2 : 2 ≤ dd) (hk : k < dd) : meshAxis k ≤ dd - 1 := by
  unfold meshAxis
  split_ifs <;> omega

lemma row_length_uniform_cube {dd : ℕ} (h2 : 2 ≤ dd) (radius d : ℚ) {k : ℕ} (hk : k < dd) :
    ((uniform_cube dd radius d).getD k []).length
      = (arange (-radius) radius d).length ^ dd := by
  rw [getD_uniform_cube_row (by omega) radius d hk, length_tileRep]
  have hax : meshAxis k ≤ dd - 1 := meshAxis_le h2 hk
  have hsum : meshAxis k + (dd - 1 - meshAxis k + 1) = dd := by omega
  rw [← pow_succ', ← pow_add, hsum]

lemma entry_uniform_cube {dd : ℕ} (h2 : 2 ≤ dd) (radius d : ℚ) {k f : ℕ} (hk : k < dd)
    (hf : f < (arange (-radius) radius d).length ^ dd) :
    ((uniform_cube dd radius d).getD k []).getD f 0
      = (arange (-radius) radius d).getD
          (f / (arange (-radius) radius d).length ^ (dd - 1 - meshAxis k)
            % (arange (-radius) radius d).length) 0 := by
  rw [getD_uniform_cube_row (by omega) radius d hk]
  apply getD_tileRep
  have hax : meshAxis k ≤ dd - 1 := meshAxis_le h2 hk
  have hsum : meshAxis k + (dd - 1 - meshAxis k + 1) = dd := by omega
  rw [← pow_succ', ← pow_add, hsum]
  exact hf

lemma mem_repEach {inner : ℕ} {l : List ℚ} {y : ℚ} (hy : y ∈ repEach inner l) : y ∈ l := by
  induction l with
  | nil => simp [repEach] at hy
  | cons x xs ih =>
    rw [repEach, List.mem_append] at hy
    rcases hy with hy | hy
    · simp [List.eq_of_mem_replicate hy]
    · simp [ih hy]

lemma mem_tileRep {axis : List ℚ} {o i : ℕ} {y : ℚ} (hy : y ∈ tileRep axis o i) : y ∈ axis := by
  rw [tileRep, List.mem_flatten] at hy
  obtain ⟨l, hl, hyl⟩ := hy
  rw [List.eq_of_mem_replicate hl] at hyl
  exact mem_repEach hyl

/-! ### Lemmas about `dotL`, `colL` and `mkBasis` -/

lemma dotL_nil (b : List ℝ) : dotL [] b = 0 := rfl

lemma dotL_cons (x y : ℝ) (a b : List ℝ) : dotL (x :: a) (y :: b) = x * y + dotL a b := by
  simp [dotL]

lemma dotL_eq_sum : ∀ {n : ℕ} {a b : List ℝ}, a.length = n → b.length = n →
    dotL a b = ∑ t ∈ Finset.range n, a.getD t 0 * b.getD t 0 := by
  intro n
  induction n with
  | zero =>
    intro a b ha hb
    rw [List.length_eq_zero.mp ha, List.length_eq_zero.mp hb]
    simp [dotL]
  | succ n ih =>
    intro a b ha hb
    cases a with
    | nil => simp at ha
    | cons x a' =>
      cases b with
      | nil => simp at hb
      | cons y b' =>
        rw [dotL_cons, Finset.sum_range_succ']
        simp only [List.getD_cons_succ, List.getD_cons_zero]
        rw [ih (by simpa using ha) (by simpa using hb)]
        ring

lemma getD_map_div (l : List ℝ) (s : ℝ) (j : ℕ) :
    (l.map (fun x => x / s)).getD j 0 = l.getD j 0 / s := by
  induction l generalizing j with
  | nil => simp
  | cons x xs ih =>
    cases j with
    | zero => simp
    | succ j =>
      rw [List.map_cons, List.getD_cons_succ, List.getD_cons_succ]
      exact ih j

lemma dotL_map_div (a : List ℝ) (s : ℝ) : ∀ b : List ℝ,
    dotL (a.map (fun x => x / s)) (b.map (fun x => x / s)) = dotL a b / (s * s) := by
  induction a with
  | nil => intro b; simp [dotL]
  | cons x a' ih =>
    intro b
    cases b with
    | nil => simp [dotL]
    | cons y b' =>
      simp only [List.map_cons, dotL_cons, ih b']
      rw [div_mul_div_comm, add_div]

lemma length_colL (M : List (List ℝ)) (j : ℕ) : (colL M j).length = M.length := by
  simp [colL]

lemma getD_colL (M : List (List ℝ)) (j t : ℕ) :
    (colL M j).getD t 0 = (M.getD t []).getD j 0 := by
  have h := getD_map_eq (fun row : List ℝ => row.getD j 0) M [] t
  simpa [colL] using h

lemma length_mkBasis (U : List (List ℝ)) (nb : ℕ) (dx : ℚ) :
    (mkBasis U nb dx).length = U.length := by
  simp [mkBasis]

lemma colL_mkBasis (U : List (List ℝ)) (nb : ℕ) (dx : ℚ) {j : ℕ} (hj : j < nb) :
    colL (mkBasis U nb dx) j
      = (colL U j).map (fun x => x / Real.sqrt (dx : ℝ)) := by
  unfold mkBasis colL
  rw [List.map_map, List.map_map]
  apply List.map_congr_left
  intro row _
  simp only [Function.comp_apply]
  rw [getD_map_div, getD_take_of_lt _ _ hj]

/-- Columns of `U` are pairwise orthonormal up to index `m` (what
`np.linalg.svd` guarantees for its left singular vectors). -/
def orthonormalColsL (M : List (List ℝ)) (m : ℕ) : Prop :=
  ∀ i, i < m → ∀ j, j < m → dotL (colL M i) (colL M j) = if i = j then 1 else 0

lemma mkBasis_dot (U : List (List ℝ)) (n nb : ℕ) (dx : ℚ)
    (hU : orthonormalColsL U n) (hdx : 0 < dx) (hnb : nb ≤ n)
    {i j : ℕ} (hi : i < nb) (hj : j < nb) :
    dotL (colL (mkBasis U nb dx) i) (colL (mkBasis U nb dx) j) * (dx : ℝ)
      = if i = j then 1 else 0 := by
  rw [colL_mkBasis U nb dx hi, colL_mkBasis U nb dx hj, dotL_map_div,
    hU i (lt_of_lt_of_le hi hnb) j (lt_of_lt_of_le hj hnb)]
  have hdx' : (0 : ℝ) < (dx : ℝ) := by exact_mod_cast hdx
  rw [Real.mul_self_sqrt (le_of_lt hdx')]
  exact div_mul_cancel₀ _ (ne_of_gt hdx')

lemma numColsL_mkBasis (U : List (List ℝ)) (n nb : ℕ) (dx : ℚ)
    (hlen : U.length = n) (hrect : ∀ row ∈ U, row.length = n) (hnb : nb ≤ n) :
    numColsL (mkBasis U nb dx) = nb := by
  cases U with
  | nil =>
    simp only [List.length_nil] at hlen
    subst hlen
    simp [mkBasis, numColsL]
    omega
  | cons r rest =>
    have hr : r.length = n := hrect r (by simp)
    simp [mkBasis, numColsL, hr]
    omega

lemma mkBasis_orthonormal (U : List (List ℝ)) (n nb : ℕ) (dx : ℚ)
    (hU : orthonormalColsL U n) (hlen : U.length = n)
    (hrect : ∀ row ∈ U, row.length = n) (hdx : 0 < dx) (hnb : nb ≤ n) :
    scaleMatL (dx : ℝ) (matMulL (transposeL (mkBasis U nb dx)) (mkBasis U nb dx))
      = idMat nb := by
  have hcols : numColsL (mkBasis U nb dx) = nb := numColsL_mkBasis U n nb dx hlen hrect hnb
  unfold scaleMatL matMulL transposeL idMat
  rw [hcols, List.map_map, List.map_map]
  apply List.map_congr_left
  intro i hi
  rw [List.mem_range] at hi
  simp only [Function.comp_apply, List.map_map]
  apply List.map_congr_left
  intro j hj
  rw [List.mem_range] at hj
  simp only [Function.comp_apply]
  rw [mkBasis_dot U n nb dx hU hdx hnb hi hj]

lemma getD_map_of_lt {α β : Type} (f : α → β) (l : List α) (d : β) (d0 : α) {k : ℕ}
    (hk : k < l.length) : (l.map f).getD k d = f (l.getD k d0) := by
  rw [List.getD_eq_getElem _ _ (by simpa using hk), List.getD_eq_getElem _ _ hk,
    List.getElem_map]

lemma headD_eq_getD_zero {α : Type} (l : List α) (d : α) : l.headD d = l.getD 0 d := by
  cases l <;> rfl

lemma numColsL_mkBasis_min (U : List (List ℝ)) (k : ℕ) (dx : ℚ) :
    numColsL (mkBasis U k dx) = min k (numColsL U) := by
  cases U with
  | nil => simp [mkBasis, numColsL]
  | cons r rest => simp [mkBasis, numColsL]

/-! ### Claim theorems -/

/-- C1: the claim says the constructor stores `dx = d ** domain_dim` for every
`domain_dim >= 1`.  The code stores `d ** self.domain.shape[1]`, and for
`domain_dim >= 2` the stored domain has shape `(domain_dim, n_points)`, so the
exponent is the number of grid points, not the dimension: at
`domain_dim = 2, radius = 1, d = 1/2` the grid is `(2, 16)` and the stored
`dx` is `(1/2)^16`, not `(1/2)^2`.  (The constructor's own comment calls `dx`
the volume element for integration, which is `d ** domain_dim`.) -/
theorem C1_dx_uses_grid_columns_not_domain_dim :
    (mkFunctionSpace (fun _ _ => (1 : ℝ)) 2 [] 1 20 (1/2) 1 [] []).dx = (1/2 : ℚ) ^ 16
    ∧ numColsL (mkFunctionSpace (fun _ _ => (1 : ℝ)) 2 [] 1 20 (1/2) 1 [] []).domain = 16
    ∧ (1/2 : ℚ) ^ 16 ≠ (1/2 : ℚ) ^ 2 := by
  have hax : (arange (-(1 : ℚ)) 1 (1/2)).length = 4 := by
    rw [length_arange]
    norm_num
    rfl
  have hcols : numColsL (uniform_cube 2 1 (1/2)) = 16 := by
    rw [numColsL, headD_eq_getD_zero]
    rw [row_length_uniform_cube (by norm_num) 1 (1/2) (by norm_num), hax]
    norm_num
  refine ⟨?_, hcols, by norm_num⟩
  show (1/2 : ℚ) ^ numColsL (uniform_cube 2 1 (1/2)) = (1/2 : ℚ) ^ 16
  rw [hcols]

/-- C2 counterexample: the claim says `uniform_cube(domain_dim, radius, d)` for
`domain_dim > 1` returns an array of shape `(n_points, domain_dim)` whose rows
are the grid points.  At `domain_dim = 2, radius = 1, d = 1` the tick axis has
2 points, so the mesh has `n_points = 4` grid points, but the function returns
2 rows (of length 4 each): the stacked raveled mesh coordinates are not
transposed. -/
theorem C2_uniform_cube_shape_counterexample :
    (arange (-(1 : ℚ)) 1 1).length = 2
    ∧ (uniform_cube 2 1 1).length = 2
    ∧ ¬ ((uniform_cube 2 1 1).length = 2 ^ 2
          ∧ ∀ row ∈ uniform_cube 2 1 1, row.length = 2) := by
  have hax : (arange (-(1 : ℚ)) 1 1).length = 2 := by
    rw [length_arange]
    norm_num
    rfl
  have hlen : (uniform_cube 2 1 1).length = 2 := length_uniform_cube_ne_one (by norm_num) 1 1
  refine ⟨hax, hlen, ?_⟩
  rintro ⟨h4, -⟩
  rw [hlen] at h4
  norm_num at h4

/-- C2 (amended): for `domain_dim > 1` (with `radius > 0`, `0 < d < 2*radius`),
`uniform_cube` returns the raveled meshgrid outputs stacked as rows, without
the transposition the claim asserts: the result has `domain_dim` rows of length
`n ^ domain_dim` each (`n` = tick count), i.e. shape `(domain_dim, n_points)`;
column `f` is the grid point whose `k`-th coordinate is the tick of index
`f / n ^ (domain_dim - 1 - meshAxis k) mod n` — row-major flattening over the
mesh axes, with coordinates 0 and 1 swapped by the meshgrid 'xy' convention. -/
theorem C2_uniform_cube_returns_untransposed_mesh (dd : ℕ) (radius d : ℚ)
    (hdd : 1 < dd) (_hr : 0 < radius) (_hd : 0 < d) (_hd2 : d < 2 * radius) :
    (uniform_cube dd radius d).length = dd
    ∧ (∀ k, k < dd → ((uniform_cube dd radius d).getD k []).length
        = (arange (-radius) radius d).length ^ dd)
    ∧ (∀ k, k < dd → ∀ f, f < (arange (-radius) radius d).length ^ dd →
        ((uniform_cube dd radius d).getD k []).getD f 0
          = (arange (-radius) radius d).getD
              (f / (arange (-radius) radius d).length ^ (dd - 1 - meshAxis k)
                % (arange (-radius) radius d).length) 0) :=
  ⟨length_uniform_cube_ne_one (by omega) radius d,
   fun _ hk => row_length_uniform_cube (by omega) radius d hk,
   fun _ hk _ hf => entry_uniform_cube (by omega) radius d hk hf⟩

/-- Witness for C2's amended theorem at `domain_dim = 2, radius = 1, d = 1`. -/
theorem C2_uniform_cube_returns_untransposed_mesh_witness :
    (uniform_cube 2 1 1).length = 2
    ∧ (∀ k, k < 2 → ((uniform_cube 2 1 1).getD k []).length
        = (arange (-(1 : ℚ)) 1 1).length ^ 2)
    ∧ (∀ k, k < 2 → ∀ f, f < (arange (-(1 : ℚ)) 1 1).length ^ 2 →
        ((uniform_cube 2 1 1).getD k []).getD f 0
          = (arange (-(1 : ℚ)) 1 1).getD
              (f / (arange (-(1 : ℚ)) 1 1).length ^ (2 - 1 - meshAxis k)
                % (arange (-(1 : ℚ)) 1 1).length) 0) :=
  C2_uniform_cube_returns_untransposed_mesh 2 1 1 (by norm_num) (by norm_num)
    (by norm_num) (by norm_num)

/-- C10: after `select_top_basis(k)` with `k` larger than the number of stored
left-singular-vector columns, `n_basis` is the requested `k` while the stored
basis is silently clamped (numpy slicing) to `min(k, U.shape[1])` columns, so
`n_basis` no longer matches the basis column count.  (The operation is total:
out-of-range slicing does not raise in numpy, matching this model.) -/
theorem C10_select_top_basis_out_of_range (fn : List ℚ → List ℝ → ℝ) (dd : ℕ)
    (dists : List (ℕ → List ℝ)) (nf nb0 : ℕ) (d radius : ℚ) (U : List (List ℝ))
    (S : List ℝ) (k : ℕ) (hk : numColsL U < k) :
    ((mkFunctionSpace fn dd dists nf nb0 d radius U S).select_top_basis k).n_basis = k
    ∧ numColsL ((mkFunctionSpace fn dd dists nf nb0 d radius U S).select_top_basis k).basis
        = min k (numColsL U)
    ∧ numColsL ((mkFunctionSpace fn dd dists nf nb0 d radius U S).select_top_basis k).basis
        ≠ ((mkFunctionSpace fn dd dists nf nb0 d radius U S).select_top_basis k).n_basis := by
  have hb : ((mkFunctionSpace fn dd dists nf nb0 d radius U S).select_top_basis k).basis
      = mkBasis U k (mkFunctionSpace fn dd dists nf nb0 d radius U S).dx := rfl
  have hn : ((mkFunctionSpace fn dd dists nf nb0 d radius U S).select_top_basis k).n_basis
      = k := rfl
  refine ⟨hn, ?_, ?_⟩
  · rw [hb, numColsL_mkBasis_min]
  · rw [hb, hn, numColsL_mkBasis_min]
    omega

/-- Witness for C10 at a concrete 2x2 `U` and `k = 5`. -/
theorem C10_select_top_basis_out_of_range_witness :
    ((mkFunctionSpace (fun _ _ => (1 : ℝ)) 1 [] 1 20 1 1 [[1, 0], [0, 1]] [1]).select_top_basis
        5).n_basis = 5
    ∧ numColsL ((mkFunctionSpace (fun _ _ => (1 : ℝ)) 1 [] 1 20 1 1 [[1, 0], [0, 1]]
        [1]).select_top_basis 5).basis = min 5 (numColsL [[(1 : ℝ), 0], [0, 1]])
    ∧ numColsL ((mkFunctionSpace (fun _ _ => (1 : ℝ)) 1 [] 1 20 1 1 [[1, 0], [0, 1]]
        [1]).select_top_basis 5).basis
        ≠ ((mkFunctionSpace (fun _ _ => (1 : ℝ)) 1 [] 1 20 1 1 [[1, 0], [0, 1]]
        [1]).select_top_basis 5).n_basis :=
  C10_select_top_basis_out_of_range (fun _ _ => (1 : ℝ)) 1 [] 1 20 1 1
    [[1, 0], [0, 1]] [1] 5 (by simp [numColsL])

/-- C6: `generate_functions` samples each distribution once with `sample(n)` up
front, returns exactly `n` callables, and the `k`-th callable applied to a point
`p` returns `function(p, s_0[k], ..., s_m[k])` where `s_j` is the `j`-th
distribution's sample sequence (the index is bound by value, so there is no
closure-over-loop-variable late binding); in particular a constant base
function yields functions that are constantly 1 on any point. -/
theorem C6_generate_functions_index_binding {P : Type} (f : P → List ℝ → ℝ) (n : ℕ)
    (arg_dists : List (ℕ → List ℝ)) (_hn : 1 ≤ n) :
    (generate_functions f n arg_dists).length = n
    ∧ (∀ k, k < n → ∀ p : P,
        (generate_functions f n arg_dists).getD k (fun _ => 0) p
          = f p ((arg_dists.map (fun arg_dist => arg_dist n)).map
              (fun arg_sample => arg_sample.getD k 0)))
    ∧ (∀ k, k < n → ∀ p : P,
        (generate_functions (fun _ _ => (1 : ℝ)) n arg_dists).getD k (fun _ => 0) p
          = 1) := by
  refine ⟨by simp [generate_functions], ?_, ?_⟩
  · intro k hk p
    show ((List.range n).map _).getD k (fun _ => 0) p = _
    rw [getD_range_map _ _ hk]
  · intro k hk p
    show ((List.range n).map _).getD k (fun _ => 0) p = _
    rw [getD_range_map _ _ hk]

/-- Witness for C6 at `n = 2` with one concrete distribution. -/
theorem C6_generate_functions_index_binding_witness :
    (generate_functions (fun p params => p + params.getD 0 0) 2
        [fun _ => [(10 : ℝ), 20]]).length = 2
    ∧ (∀ k, k < 2 → ∀ p : ℝ,
        (generate_functions (fun p params => p + params.getD 0 0) 2
            [fun _ => [(10 : ℝ), 20]]).getD k (fun _ => 0) p
          = (fun (p : ℝ) (params : List ℝ) => p + params.getD 0 0) p
              (([fun _ => [(10 : ℝ), 20]].map
                  (fun arg_dist : ℕ → List ℝ => arg_dist 2)).map
                (fun arg_sample => arg_sample.getD k 0)))
    ∧ (∀ k, k < 2 → ∀ p : ℝ,
        (generate_functions (fun _ _ => (1 : ℝ)) 2
            [fun _ => [(10 : ℝ), 20]]).getD k (fun _ => 0) p = 1) :=
  C6_generate_functions_index_binding (fun p params => p + params.getD 0 0) 2
    [fun _ => [(10 : ℝ), 20]] (by norm_num)

/-- C7: `function_values(functions, domain_points)` returns a matrix with one
row per domain point and one column per function, whose entry `(j, i)` is
function `i` evaluated at point `j`.  (The model is pure and total, matching
the source's only failure mode: an exception of some function call is simply
propagated; there is no recovery path to model.) -/
theorem C7_function_values_shape_and_entries {P : Type} [Inhabited P]
    (functions : List (P → ℝ)) (domain_points : List P) :
    (function_values functions domain_points).length = domain_points.length
    ∧ (∀ row ∈ function_values functions domain_points, row.length = functions.length)
    ∧ (∀ j, j < domain_points.length → ∀ i, i < functions.length →
        ((function_values functions domain_points).getD j []).getD i 0
          = (functions.getD i (fun _ => 0)) (domain_points.getD j default)) := by
  refine ⟨by simp [function_values], ?_, ?_⟩
  · intro row hrow
    rw [function_values, List.mem_map] at hrow
    obtain ⟨p, -, rfl⟩ := hrow
    simp
  · intro j hj i hi
    rw [function_values]
    rw [getD_map_of_lt _ _ _ default hj]
    rw [getD_map_of_lt _ _ _ (fun _ => 0) hi]

/-- Witness for C7 at one concrete function list and point list. -/
theorem C7_function_values_shape_and_entries_witness :
    (function_values [fun x : ℚ => (x : ℝ) + 1] [(3 : ℚ), 4]).length = [(3 : ℚ), 4].length
    ∧ (∀ row ∈ function_values [fun x : ℚ => (x : ℝ) + 1] [(3 : ℚ), 4],
        row.length = [fun x : ℚ => (x : ℝ) + 1].length)
    ∧ (∀ j, j < [(3 : ℚ), 4].length → ∀ i, i < [fun x : ℚ => (x : ℝ) + 1].length →
        ((function_values [fun x : ℚ => (x : ℝ) + 1] [(3 : ℚ), 4]).getD j []).getD i 0
          = ([fun x : ℚ => (x : ℝ) + 1].getD i (fun _ => 0))
              ([(3 : ℚ), 4].getD j default)) :=
  C7_function_values_shape_and_entries [fun x : ℚ => (x : ℝ) + 1] [(3 : ℚ), 4]

lemma length_tileRep_pow (axis : List ℚ) {dd k : ℕ} (h2 : 2 ≤ dd) (hk : k < dd) :
    (tileRep axis (axis.length ^ meshAxis k)
        (axis.length ^ (dd - 1 - meshAxis k))).length = axis.length ^ dd := by
  rw [length_tileRep]
  have hax : meshAxis k ≤ dd - 1 := meshAxis_le h2 hk
  have hsum : meshAxis k + (dd - 1 - meshAxis k + 1) = dd := by omega
  rw [← pow_succ', ← pow_add, hsum]

lemma mem_arange_bounds {radius d : ℚ} (hd : 0 < d) {x : ℚ}
    (hx : x ∈ arange (-radius) radius d) : -radius ≤ x ∧ x < radius := by
  unfold arange at hx
  rw [List.mem_map] at hx
  obtain ⟨k, hk, rfl⟩ := hx
  rw [List.mem_range, Int.lt_toNat] at hk
  constructor
  · have h0 : 0 ≤ (k : ℚ) * d := mul_nonneg (Nat.cast_nonneg k) hd.le
    linarith
  · have h1 : ((k : ℚ)) + 1 ≤ (⌈(radius - -radius) / d⌉ : ℚ) := by
      have : (k : ℤ) + 1 ≤ ⌈(radius - -radius) / d⌉ := hk
      exact_mod_cast this
    have h2 : (⌈(radius - -radius) / d⌉ : ℚ) < (radius - -radius) / d + 1 :=
      Int.ceil_lt_add_one _
    have h3 : (k : ℚ) < (radius - -radius) / d := by linarith
    have h4 : (k : ℚ) * d < radius - -radius := by
      rw [div_eq_mul_inv] at h3
      calc (k : ℚ) * d < (radius - -radius) * d⁻¹ * d := by
            exact mul_lt_mul_of_pos_right h3 hd
        _ = radius - -radius := by field_simp
    linarith

lemma round_le_ceil_le (x : ℚ) : round x ≤ ⌈x⌉ ∧ ⌈x⌉ ≤ round x + 1 := by
  have h1 : |x - (round x : ℚ)| ≤ 1 / 2 := abs_sub_round x
  rw [abs_le] at h1
  have h2 : x ≤ (⌈x⌉ : ℚ) := Int.le_ceil x
  have h3 : (⌈x⌉ : ℚ) < x + 1 := Int.ceil_lt_add_one x
  constructor
  · have : (round x : ℚ) < (⌈x⌉ : ℚ) + 1 := by linarith
    exact_mod_cast Int.lt_add_one_iff.mp (by exact_mod_cast this)
  · have : (⌈x⌉ : ℚ) < (round x : ℚ) + 1 + 1 := by linarith
    exact_mod_cast Int.lt_add_one_iff.mp (by exact_mod_cast this)

lemma numColsL_uniform_cube_one (radius d : ℚ)
    (hne : arange (-radius) radius d ≠ []) :
    numColsL (uniform_cube 1 radius d) = 1 := by
  obtain ⟨y, ys, hys⟩ := List.exists_cons_of_ne_nil hne
  simp [uniform_cube, numColsL, hys]

/-- C8: for `domain_dim` in {1,2,3} the grid's total point count is
`n ^ domain_dim` where `n`, the per-axis tick count, is within one of
`round(2*radius/d)` (in exact arithmetic `n = ceil(2*radius/d)`), and every
coordinate lies in `[-radius, radius)`.  For `domain_dim = 1` the grid points
are the rows; for `domain_dim >= 2` the grid points are the columns of the
`(domain_dim, n^domain_dim)` result.  Scenario: `domain_dim=1, radius=1,
d=1/10` gives 20 points `-1, -9/10, ..., 9/10` and the constructor stores
`dx = 1/10`. -/
theorem C8_uniform_cube_point_count_and_bounds (dd : ℕ) (radius d : ℚ)
    (_hdd : dd = 1 ∨ dd = 2 ∨ dd = 3) (hr : 0 < radius) (hd : 0 < d)
    (_h2r : d < 2 * radius) :
    (dd = 1 → (uniform_cube dd radius d).length = (arange (-radius) radius d).length
        ∧ ∀ row ∈ uniform_cube dd radius d, row.length = 1)
    ∧ (2 ≤ dd → (uniform_cube dd radius d).length = dd
        ∧ ∀ row ∈ uniform_cube dd radius d,
            row.length = (arange (-radius) radius d).length ^ dd)
    ∧ (round (2 * radius / d) ≤ ((arange (-radius) radius d).length : ℤ)
        ∧ ((arange (-radius) radius d).length : ℤ) ≤ round (2 * radius / d) + 1)
    ∧ (∀ row ∈ uniform_cube dd radius d, ∀ x ∈ row, -radius ≤ x ∧ x < radius)
    ∧ ((uniform_cube 1 1 (1/10)).length = 20
        ∧ (∀ k, k < 20 →
            (uniform_cube 1 1 (1/10)).getD k [] = [-1 + (k : ℚ) * (1/10)])
        ∧ (mkFunctionSpace (fun _ _ => (1 : ℝ)) 1 [] 1 20 (1/10) 1 [] []).dx = 1/10) := by
  have harg : (radius - -radius) / d = 2 * radius / d := by ring_nf
  refine ⟨?_, ?_, ⟨?_, ?_⟩, ?_, ?_, ?_, ?_⟩
  · intro h1
    subst h1
    constructor
    · simp [uniform_cube]
    · intro row hrow
      rw [uniform_cube, if_pos rfl, List.mem_map] at hrow
      obtain ⟨x, -, rfl⟩ := hrow
      rfl
  · intro h2
    constructor
    · exact length_uniform_cube_ne_one (by omega) radius d
    · intro row hrow
      rw [uniform_cube, if_neg (by omega : dd ≠ 1), List.mem_map] at hrow
      obtain ⟨k, hk, rfl⟩ := hrow
      rw [List.mem_range] at hk
      exact length_tileRep_pow _ h2 hk
  · rw [length_arange, harg]
    have hpos : 0 < 2 * radius / d := by positivity
    have hc : 0 < ⌈2 * radius / d⌉ := Int.ceil_pos.mpr hpos
    rw [Int.toNat_of_nonneg hc.le]
    exact (round_le_ceil_le _).1
  · rw [length_arange, harg]
    have hpos : 0 < 2 * radius / d := by positivity
    have hc : 0 < ⌈2 * radius / d⌉ := Int.ceil_pos.mpr hpos
    rw [Int.toNat_of_nonneg hc.le]
    exact (round_le_ceil_le _).2
  · intro row hrow x hx
    rw [uniform_cube] at hrow
    by_cases h1 : dd = 1
    · rw [if_pos h1, List.mem_map] at hrow
      obtain ⟨y, hy, rfl⟩ := hrow
      rw [List.mem_singleton] at hx
      subst hx
      exact mem_arange_bounds hd hy
    · rw [if_neg h1, List.mem_map] at hrow
      obtain ⟨k, -, rfl⟩ := hrow
      exact mem_arange_bounds hd (mem_tileRep hx)
  · rw [uniform_cube, if_pos rfl, List.length_map, length_arange]
    norm_num
    rfl
  · intro k hk
    have hlen : (arange (-(1 : ℚ)) 1 (1/10)).length = 20 := by
      rw [length_arange]
      norm_num
      rfl
    rw [uniform_cube, if_pos rfl, getD_map_of_lt _ _ _ 0 (by rw [hlen]; exact hk)]
    rw [getD_arange _ _ _ (by rw [← length_arange]; rw [hlen]; exact hk)]
  · show (1/10 : ℚ) ^ numColsL (uniform_cube 1 1 (1/10)) = 1/10
    have hne : arange (-(1 : ℚ)) 1 (1/10) ≠ [] := by
      apply List.ne_nil_of_length_pos
      rw [length_arange]
      norm_num
    rw [numColsL_uniform_cube_one 1 (1/10) hne, pow_one]

/-- Witness for C8 at `domain_dim = 2, radius = 1, d = 1/2`. -/
theorem C8_uniform_cube_point_count_and_bounds_witness :
    ((2 : ℕ) = 1 → (uniform_cube 2 1 (1/2)).length = (arange (-(1 : ℚ)) 1 (1/2)).length
        ∧ ∀ row ∈ uniform_cube 2 1 (1/2), row.length = 1)
    ∧ (2 ≤ (2 : ℕ) → (uniform_cube 2 1 (1/2)).length = 2
        ∧ ∀ row ∈ uniform_cube 2 1 (1/2),
            row.length = (arange (-(1 : ℚ)) 1 (1/2)).length ^ 2)
    ∧ (round (2 * (1 : ℚ) / (1/2)) ≤ ((arange (-(1 : ℚ)) 1 (1/2)).length : ℤ)
        ∧ ((arange (-(1 : ℚ)) 1 (1/2)).length : ℤ) ≤ round (2 * (1 : ℚ) / (1/2)) + 1)
    ∧ (∀ row ∈ uniform_cube 2 1 (1/2), ∀ x ∈ row, -(1 : ℚ) ≤ x ∧ x < 1)
    ∧ ((uniform_cube 1 1 (1/10)).length = 20
        ∧ (∀ k, k < 20 →
            (uniform_cube 1 1 (1/10)).getD k [] = [-1 + (k : ℚ) * (1/10)])
        ∧ (mkFunctionSpace (fun _ _ => (1 : ℝ)) 1 [] 1 20 (1/10) 1 [] []).dx = 1/10) :=
  C8_uniform_cube_point_count_and_bounds 2 1 (1/2) (by norm_num) (by norm_num)
    (by norm_num) (by norm_num)

/-- C5: for a constructed `Function_Space` and `1 <= k <=` the number of stored
left-singular-vector columns, `select_top_basis(k)` re-slices the stored `U`
with the construction-time scaling (`U[:, :k] / sqrt(dx)`); for `k` at most
the construction `n_basis` this is exactly the first `k` columns of the basis
computed at construction; `singular_values()` is the unchanged full sequence;
and `domain`, `fns`, `dx`, `U`, `S` are unmodified. -/
theorem C5_select_top_basis_frame (fn : List ℚ → List ℝ → ℝ) (dd : ℕ)
    (dists : List (ℕ → List ℝ)) (nf nb0 : ℕ) (d radius : ℚ) (U : List (List ℝ))
    (S : List ℝ) (fs : Function_Space)
    (hfs : fs = mkFunctionSpace fn dd dists nf nb0 d radius U S)
    (k : ℕ) (_hk1 : 1 ≤ k) (_hk2 : k ≤ numColsL U) :
    (fs.select_top_basis k).get_basis = mkBasis fs.U k fs.dx
    ∧ (k ≤ fs.n_basis →
        (fs.select_top_basis k).get_basis
          = fs.get_basis.map (fun row => row.take k))
    ∧ (fs.select_top_basis k).singular_values = fs.singular_values
    ∧ (fs.select_top_basis k).domain = fs.domain
    ∧ (fs.select_top_basis k).fns = fs.fns
    ∧ (fs.select_top_basis k).dx = fs.dx
    ∧ (fs.select_top_basis k).U = fs.U
    ∧ (fs.select_top_basis k).S = fs.S := by
  subst hfs
  refine ⟨rfl, ?_, rfl, rfl, rfl, rfl, rfl, rfl⟩
  intro hknb
  have hknb' : k ≤ nb0 := hknb
  show mkBasis U k (d ^ numColsL (uniform_cube dd radius d))
      = (mkBasis U nb0 (d ^ numColsL (uniform_cube dd radius d))).map
          (fun row => row.take k)
  unfold mkBasis
  rw [List.map_map]
  apply List.map_congr_left
  intro row _
  simp only [Function.comp_apply]
  rw [← List.map_take, List.take_take, min_eq_left hknb']

/-- Witness for C5 at a concrete 2x2 `U` and `k = 1`. -/
theorem C5_select_top_basis_frame_witness :
    ((mkFunctionSpace (fun _ _ => (1 : ℝ)) 1 [] 2 2 1 1 [[1, 0], [0, 1]]
          [3, 2]).select_top_basis 1).get_basis
        = mkBasis (mkFunctionSpace (fun _ _ => (1 : ℝ)) 1 [] 2 2 1 1 [[1, 0], [0, 1]]
            [3, 2]).U 1
            (mkFunctionSpace (fun _ _ => (1 : ℝ)) 1 [] 2 2 1 1 [[1, 0], [0, 1]]
              [3, 2]).dx
    ∧ (1 ≤ (mkFunctionSpace (fun _ _ => (1 : ℝ)) 1 [] 2 2 1 1 [[1, 0], [0, 1]]
          [3, 2]).n_basis →
        ((mkFunctionSpace (fun _ _ => (1 : ℝ)) 1 [] 2 2 1 1 [[1, 0], [0, 1]]
            [3, 2]).select_top_basis 1).get_basis
          = (mkFunctionSpace (fun _ _ => (1 : ℝ)) 1 [] 2 2 1 1 [[1, 0], [0, 1]]
              [3, 2]).get_basis.map (fun row => row.take 1))
    ∧ ((mkFunctionSpace (fun _ _ => (1 : ℝ)) 1 [] 2 2 1 1 [[1, 0], [0, 1]]
          [3, 2]).select_top_basis 1).singular_values
        = (mkFunctionSpace (fun _ _ => (1 : ℝ)) 1 [] 2 2 1 1 [[1, 0], [0, 1]]
            [3, 2]).singular_values
    ∧ ((mkFunctionSpace (fun _ _ => (1 : ℝ)) 1 [] 2 2 1 1 [[1, 0], [0, 1]]
          [3, 2]).select_top_basis 1).domain
        = (mkFunctionSpace (fun _ _ => (1 : ℝ)) 1 [] 2 2 1 1 [[1, 0], [0, 1]]
            [3, 2]).domain
    ∧ ((mkFunctionSpace (fun _ _ => (1 : ℝ)) 1 [] 2 2 1 1 [[1, 0], [0, 1]]
          [3, 2]).select_top_basis 1).fns
        = (mkFunctionSpace (fun _ _ => (1 : ℝ)) 1 [] 2 2 1 1 [[1, 0], [0, 1]]
            [3, 2]).fns
    ∧ ((mkFunctionSpace (fun _ _ => (1 : ℝ)) 1 [] 2 2 1 1 [[1, 0], [0, 1]]
          [3, 2]).select_top_basis 1).dx
        = (mkFunctionSpace (fun _ _ => (1 : ℝ)) 1 [] 2 2 1 1 [[1, 0], [0, 1]]
            [3, 2]).dx
    ∧ ((mkFunctionSpace (fun _ _ => (1 : ℝ)) 1 [] 2 2 1 1 [[1, 0], [0, 1]]
          [3, 2]).select_top_basis 1).U
        = (mkFunctionSpace (fun _ _ => (1 : ℝ)) 1 [] 2 2 1 1 [[1, 0], [0, 1]]
            [3, 2]).U
    ∧ ((mkFunctionSpace (fun _ _ => (1 : ℝ)) 1 [] 2 2 1 1 [[1, 0], [0, 1]]
          [3, 2]).select_top_basis 1).S
        = (mkFunctionSpace (fun _ _ => (1 : ℝ)) 1 [] 2 2 1 1 [[1, 0], [0, 1]]
            [3, 2]).S :=
  C5_select_top_basis_frame (fun _ _ => (1 : ℝ)) 1 [] 2 2 1 1 [[1, 0], [0, 1]]
    [3, 2] _ rfl 1 (by norm_num) (by simp [numColsL])

/-- A small concrete constructed `Function_Space` used by witnesses: 1-d domain
of radius 1 with `d = 1` (grid `[[-1], [0]]`), two constant functions, and the
2x2 identity as `U` (a legitimate SVD left factor of the constant sample
matrix up to sign conventions; any orthogonal matrix satisfies the SVD
guarantee assumed by the theorems). -/
noncomputable def sampleFS : Function_Space :=
  mkFunctionSpace (fun _ _ => (1 : ℝ)) 1 [] 2 2 1 1 [[1, 0], [0, 1]] [3, 2]

lemma sampleFS_fns_length : sampleFS.fns.length = 2 := by
  show (function_values _ (uniform_cube 1 1 1)).length = 2
  rw [function_values, List.length_map, uniform_cube, if_pos rfl, List.length_map,
    length_arange]
  norm_num
  rfl

lemma sampleFS_U_orthonormal : orthonormalColsL sampleFS.U sampleFS.fns.length := by
  rw [sampleFS_fns_length]
  intro i hi j hj
  show dotL (colL [[1, 0], [0, 1]] i) (colL [[1, 0], [0, 1]] j) = _
  interval_cases i <;> interval_cases j <;> simp [colL, dotL]

/-- C3: for every constructed `Function_Space` (with `d > 0`, and `U`, the SVD
left factor of the sample matrix, square of side `n_points = fns.length` with
orthonormal columns — the SVD guarantee), the stored basis satisfies
`basis^T @ basis * dx = identity(n_basis)` exactly, provided
`n_basis <= n_functions` and `n_basis <= n_points`; and the same holds after
every `select_top_basis(k)` call with `k` in the same bounds, so the invariant
is preserved by truncation. -/
theorem C3_basis_orthonormal_dx_weighted (fn : List ℚ → List ℝ → ℝ) (dd : ℕ)
    (dists : List (ℕ → List ℝ)) (nf nb : ℕ) (d radius : ℚ) (U : List (List ℝ))
    (S : List ℝ) (fs : Function_Space)
    (hfs : fs = mkFunctionSpace fn dd dists nf nb d radius U S)
    (hd : 0 < d)
    (hUlen : U.length = fs.fns.length)
    (hUrect : ∀ row ∈ U, row.length = fs.fns.length)
    (hU : orthonormalColsL U fs.fns.length)
    (_hnb1 : nb ≤ nf) (hnb2 : nb ≤ fs.fns.length) :
    scaleMatL (fs.dx : ℝ) (matMulL (transposeL fs.basis) fs.basis)
        = idMat fs.n_basis
    ∧ (∀ k, k ≤ nf → k ≤ fs.fns.length →
        scaleMatL ((fs.select_top_basis k).dx : ℝ)
            (matMulL (transposeL (fs.select_top_basis k).basis)
              (fs.select_top_basis k).basis)
          = idMat (fs.select_top_basis k).n_basis) := by
  subst hfs
  have hdx : 0 < d ^ numColsL (uniform_cube dd radius d) := pow_pos hd _
  constructor
  · exact mkBasis_orthonormal U _ nb _ hU hUlen hUrect hdx hnb2
  · intro k _ hk2
    exact mkBasis_orthonormal U _ k _ hU hUlen hUrect hdx hk2

/-- Witness for C3 at `sampleFS` (2x2 identity `U`, `dx = 1`, `n_basis = 2`). -/
theorem C3_basis_orthonormal_dx_weighted_witness :
    scaleMatL (sampleFS.dx : ℝ) (matMulL (transposeL sampleFS.basis) sampleFS.basis)
        = idMat sampleFS.n_basis
    ∧ (∀ k, k ≤ 2 → k ≤ sampleFS.fns.length →
        scaleMatL ((sampleFS.select_top_basis k).dx : ℝ)
            (matMulL (transposeL (sampleFS.select_top_basis k).basis)
              (sampleFS.select_top_basis k).basis)
          = idMat (sampleFS.select_top_basis k).n_basis) :=
  C3_basis_orthonormal_dx_weighted (fun _ _ => (1 : ℝ)) 1 [] 2 2 1 1
    [[1, 0], [0, 1]] [3, 2] sampleFS rfl (by norm_num)
    (by rw [sampleFS_fns_length]; rfl)
    (by rw [sampleFS_fns_length]; intro row hrow; simp only [List.mem_cons, List.not_mem_nil, or_false] at hrow; rcases hrow with h | h <;> subst h <;> rfl)
    sampleFS_U_orthonormal (by norm_num) (by rw [sampleFS_fns_length])

lemma rows_mkBasis_length (U : List (List ℝ)) (n nb : ℕ) (dx : ℚ)
    (hrect : ∀ row ∈ U, row.length = n) (hnb : nb ≤ n) :
    ∀ row ∈ mkBasis U nb dx, row.length = nb := by
  intro row hrow
  unfold mkBasis at hrow
  rw [List.mem_map] at hrow
  obtain ⟨urow, hu, rfl⟩ := hrow
  rw [List.length_map, List.length_take, hrect urow hu]
  omega

lemma roundtrip_core (U : List (List ℝ)) (n nb : ℕ) (dx : ℚ)
    (hU : orthonormalColsL U n) (hlen : U.length = n)
    (hrect : ∀ row ∈ U, row.length = n) (hdx : 0 < dx) (hnb : nb ≤ n)
    (c : List ℝ) (hc : c.length = nb) :
    (vecMatL (matVecL (mkBasis U nb dx) c) (mkBasis U nb dx)).map
        (fun x => x * (dx : ℝ)) = c := by
  set B := mkBasis U nb dx with hB
  have hBlen : B.length = n := by rw [hB, length_mkBasis, hlen]
  have hBrect : ∀ row ∈ B, row.length = nb := rows_mkBasis_length U n nb dx hrect hnb
  have hcols : numColsL B = nb := numColsL_mkBasis U n nb dx hlen hrect hnb
  have hdxr : (0 : ℝ) < (dx : ℝ) := by exact_mod_cast hdx
  have hdx0 : ((dx : ℝ)) ≠ 0 := ne_of_gt hdxr
  have hrowlen : ∀ t, t < n → (B.getD t []).length = nb := by
    intro t ht
    apply hBrect
    rw [List.getD_eq_getElem _ _ (by rw [hBlen]; exact ht)]
    exact List.getElem_mem _
  have hcolB : ∀ j, (colL B j).length = n := by
    intro j
    rw [length_colL, hBlen]
  have hdotcol : ∀ k j, k < nb → j < nb →
      dotL (colL B k) (colL B j) = (if k = j then (1 : ℝ) else 0) / (dx : ℝ) := by
    intro k j hk hj
    have hkj := mkBasis_dot U n nb dx hU hdx hnb hk hj
    rw [eq_div_iff hdx0]
    exact hkj
  have hentry : ∀ j, j < nb →
      dotL (matVecL B c) (colL B j) * (dx : ℝ) = c.getD j 0 := by
    intro j hj
    have h1 : (matVecL B c).length = n := by rw [matVecL, List.length_map, hBlen]
    rw [dotL_eq_sum h1 (hcolB j)]
    have hstep1 : ∑ t ∈ Finset.range n, (matVecL B c).getD t 0 * (colL B j).getD t 0
        = ∑ t ∈ Finset.range n, ∑ k ∈ Finset.range nb,
            c.getD k 0 * ((B.getD t []).getD k 0 * (B.getD t []).getD j 0) := by
      apply Finset.sum_congr rfl
      intro t ht
      rw [Finset.mem_range] at ht
      rw [matVecL, getD_map_of_lt _ B 0 [] (by rw [hBlen]; exact ht), getD_colL,
        dotL_eq_sum (hrowlen t ht) hc, Finset.sum_mul]
      apply Finset.sum_congr rfl
      intro k _
      ring
    rw [hstep1, Finset.sum_comm]
    have hstep2 : ∀ k ∈ Finset.range nb,
        ∑ t ∈ Finset.range n,
            c.getD k 0 * ((B.getD t []).getD k 0 * (B.getD t []).getD j 0)
          = if k = j then c.getD k 0 / (dx : ℝ) else 0 := by
      intro k hk
      rw [Finset.mem_range] at hk
      rw [← Finset.mul_sum]
      have hcc : ∑ t ∈ Finset.range n, (B.getD t []).getD k 0 * (B.getD t []).getD j 0
          = dotL (colL B k) (colL B j) := by
        rw [dotL_eq_sum (hcolB k) (hcolB j)]
        apply Finset.sum_congr rfl
        intro t _
        rw [getD_colL, getD_colL]
      rw [hcc, hdotcol k j hk hj]
      split_ifs with hkj
      · rw [hkj]
        ring
      · ring
    rw [Finset.sum_congr rfl hstep2, Finset.sum_ite_eq' (Finset.range nb) j
      (fun k => c.getD k 0 / (dx : ℝ)), if_pos (Finset.mem_range.mpr hj)]
    exact div_mul_cancel₀ _ hdx0
  apply list_eq_of_getD _ _ 0
  · rw [List.length_map, vecMatL, hcols, List.length_map, List.length_range, hc]
  · intro t ht
    rw [List.length_map, vecMatL, hcols, List.length_map, List.length_range] at ht
    have hmap : ((vecMatL (matVecL B c) B).map (fun x => x * (dx : ℝ))).getD t 0
        = (vecMatL (matVecL B c) B).getD t 0 * (dx : ℝ) := by
      apply getD_map_of_lt
      rw [vecMatL, hcols, List.length_map, List.length_range]
      exact ht
    rw [hmap, vecMatL, hcols, getD_range_map _ 0 ht]
    exact hentry t ht

/-- C4: for every constructed `Function_Space` (SVD guarantee on `U` as in C3,
`d > 0`, `n_basis` at most `n_points`) and every coefficient vector `c` of
length `n_basis`, `signal_coeffs(reconstruct(c))` returns exactly `c` (the
numerical tolerance of the claim is not needed in exact arithmetic), through
both branches of the squeeze special-case. -/
theorem C4_signal_coeffs_reconstruct_roundtrip (fn : List ℚ → List ℝ → ℝ)
    (dd : ℕ) (dists : List (ℕ → List ℝ)) (nf nb : ℕ) (d radius : ℚ)
    (U : List (List ℝ)) (S : List ℝ) (fs : Function_Space)
    (hfs : fs = mkFunctionSpace fn dd dists nf nb d radius U S)
    (hd : 0 < d)
    (hUlen : U.length = fs.fns.length)
    (hUrect : ∀ row ∈ U, row.length = fs.fns.length)
    (hU : orthonormalColsL U fs.fns.length)
    (hnb : nb ≤ fs.fns.length)
    (c : List ℝ) (hc : c.length = nb) :
    fs.signal_coeffs (fs.reconstruct (NPArr.vec c)) = some (NPArr.vec c) := by
  subst hfs
  have hdx : (0 : ℚ) < d ^ numColsL (uniform_cube dd radius d) := pow_pos hd _
  have hcore := roundtrip_core U _ nb _ hU hUlen hUrect hdx hnb c hc
  show (if (NPArr.vec ((vecMatL (matVecL (mkBasis U nb
          (d ^ numColsL (uniform_cube dd radius d))) c)
        (mkBasis U nb (d ^ numColsL (uniform_cube dd radius d)))).map
          (fun x => x * ((d ^ numColsL (uniform_cube dd radius d) : ℚ) : ℝ)))).shape0 = 1
      then reshapeFlat (NPArr.vec ((vecMatL (matVecL (mkBasis U nb
            (d ^ numColsL (uniform_cube dd radius d))) c)
          (mkBasis U nb (d ^ numColsL (uniform_cube dd radius d)))).map
            (fun x => x * ((d ^ numColsL (uniform_cube dd radius d) : ℚ) : ℝ)))) nb
      else some (NPArr.vec ((vecMatL (matVecL (mkBasis U nb
            (d ^ numColsL (uniform_cube dd radius d))) c)
          (mkBasis U nb (d ^ numColsL (uniform_cube dd radius d)))).map
            (fun x => x * ((d ^ numColsL (uniform_cube dd radius d) : ℚ) : ℝ)))))
      = some (NPArr.vec c)
  rw [hcore]
  by_cases h1 : c.length = 1
  · rw [if_pos (by simpa [NPArr.shape0] using h1)]
    rw [reshapeFlat]
    rw [if_pos (by simpa [NPArr.flat] using hc)]
    rfl
  · rw [if_neg (by simpa [NPArr.shape0] using h1)]

/-- Witness for C4 at `sampleFS` and `c = [2, 3]`. -/
theorem C4_signal_coeffs_reconstruct_roundtrip_witness :
    sampleFS.signal_coeffs (sampleFS.reconstruct (NPArr.vec [2, 3]))
      = some (NPArr.vec [2, 3]) :=
  C4_signal_coeffs_reconstruct_roundtrip (fun _ _ => (1 : ℝ)) 1 [] 2 2 1 1
    [[1, 0], [0, 1]] [3, 2] sampleFS rfl (by norm_num)
    (by rw [sampleFS_fns_length]; rfl)
    (by rw [sampleFS_fns_length]; intro row hrow; simp only [List.mem_cons,
      List.not_mem_nil, or_false] at hrow; rcases hrow with h | h <;> subst h <;> rfl)
    sampleFS_U_orthonormal (by rw [sampleFS_fns_length]) [2, 3] rfl

lemma length_scaleMatL (c : ℝ) (M : List (List ℝ)) :
    (scaleMatL c M).length = M.length := by
  simp [scaleMatL]

lemma length_matMulL (A B : List (List ℝ)) : (matMulL A B).length = A.length := by
  simp [matMulL]

lemma length_transposeL (M : List (List ℝ)) : (transposeL M).length = numColsL M := by
  simp [transposeL]

lemma rows_matMulL (A B : List (List ℝ)) :
    ∀ row ∈ matMulL A B, row.length = numColsL B := by
  intro row hrow
  rw [matMulL, List.mem_map] at hrow
  obtain ⟨arow, -, rfl⟩ := hrow
  simp

lemma rows_scaleMatL (c : ℝ) (M : List (List ℝ)) :
    ∀ row ∈ scaleMatL c M, ∃ row0 ∈ M, row.length = row0.length := by
  intro row hrow
  rw [scaleMatL, List.mem_map] at hrow
  obtain ⟨row0, h0, rfl⟩ := hrow
  exact ⟨row0, h0, by simp⟩

lemma signal_coeffs_vec (fs : Function_Space) (s : List ℝ) :
    fs.signal_coeffs (NPArr.vec s)
      = if ((vecMatL s fs.basis).map (fun x => x * (fs.dx : ℝ))).length = 1
        then reshapeFlat
          (NPArr.vec ((vecMatL s fs.basis).map (fun x => x * (fs.dx : ℝ)))) fs.n_basis
        else some (NPArr.vec ((vecMatL s fs.basis).map (fun x => x * (fs.dx : ℝ)))) :=
  rfl

lemma signal_coeffs_mat (fs : Function_Space) (sm : List (List ℝ)) :
    fs.signal_coeffs (NPArr.mat sm)
      = if (scaleMatL (fs.dx : ℝ) (matMulL (transposeL sm) fs.basis)).length = 1
        then reshapeFlat
          (NPArr.mat (scaleMatL (fs.dx : ℝ) (matMulL (transposeL sm) fs.basis)))
          fs.n_basis
        else some (NPArr.mat (scaleMatL (fs.dx : ℝ)
          (matMulL (transposeL sm) fs.basis))) :=
  rfl

/-- C9: `signal_coeffs` on a single 1-d signal of length `n_points` returns a
flat vector of length `n_basis` (never a `(1, n_basis)` matrix); on a 2-d
batch of `m > 1` signals it returns an `(m, n_basis)` matrix, unsqueezed; and
for 2-d input the squeeze to a flat vector happens exactly when the result's
leading dimension `m` equals 1. -/
theorem C9_signal_coeffs_squeeze (fn : List ℚ → List ℝ → ℝ) (dd : ℕ)
    (dists : List (ℕ → List ℝ)) (nf nb : ℕ) (d radius : ℚ) (U : List (List ℝ))
    (S : List ℝ) (fs : Function_Space)
    (hfs : fs = mkFunctionSpace fn dd dists nf nb d radius U S)
    (hrect : ∀ row ∈ U, row.length = U.length)
    (hnb1 : 1 ≤ nb) (hnb : nb ≤ U.length) :
    (∀ s : List ℝ, s.length = U.length →
      ∃ w : List ℝ, fs.signal_coeffs (NPArr.vec s) = some (NPArr.vec w)
        ∧ w.length = fs.n_basis)
    ∧ (∀ (sm : List (List ℝ)) (m : ℕ), 1 < m → sm.length = U.length →
        (∀ row ∈ sm, row.length = m) →
        ∃ r : List (List ℝ), fs.signal_coeffs (NPArr.mat sm) = some (NPArr.mat r)
          ∧ r.length = m ∧ ∀ row ∈ r, row.length = fs.n_basis)
    ∧ (∀ (sm : List (List ℝ)) (m : ℕ), 1 ≤ m → sm.length = U.length →
        (∀ row ∈ sm, row.length = m) →
        ((∃ w : List ℝ, fs.signal_coeffs (NPArr.mat sm) = some (NPArr.vec w))
          ↔ m = 1)) := by
  have hlen0 : 1 ≤ U.length := le_trans hnb1 hnb
  have hBcols : numColsL fs.basis = nb := by
    rw [hfs]
    exact numColsL_mkBasis U U.length nb _ rfl hrect hnb
  have hnbeq : fs.n_basis = nb := by rw [hfs]; rfl
  have hmatshape : ∀ (sm : List (List ℝ)) (m : ℕ), 1 ≤ m → sm.length = U.length →
      (∀ row ∈ sm, row.length = m) →
      (scaleMatL (fs.dx : ℝ) (matMulL (transposeL sm) fs.basis)).length = m
        ∧ ∀ row ∈ scaleMatL (fs.dx : ℝ) (matMulL (transposeL sm) fs.basis),
            row.length = nb := by
    intro sm m _ hsm hrows
    have hsmne : sm ≠ [] := by
      apply List.ne_nil_of_length_pos
      omega
    obtain ⟨row0, rest, rfl⟩ := List.exists_cons_of_ne_nil hsmne
    have hcols : numColsL (row0 :: rest) = m := hrows row0 (by simp)
    constructor
    · rw [length_scaleMatL, length_matMulL, length_transposeL, hcols]
    · intro row hrow
      obtain ⟨row1, h1, hlen1⟩ := rows_scaleMatL _ _ row hrow
      rw [hlen1, rows_matMulL _ _ row1 h1, hBcols]
  refine ⟨?_, ?_, ?_⟩
  · intro s _
    have hwl : ((vecMatL s fs.basis).map (fun x => x * (fs.dx : ℝ))).length = nb := by
      rw [List.length_map, vecMatL, List.length_map, List.length_range, hBcols]
    refine ⟨(vecMatL s fs.basis).map (fun x => x * (fs.dx : ℝ)), ?_, by rw [hwl, hnbeq]⟩
    rw [signal_coeffs_vec]
    by_cases h1 : nb = 1
    · rw [if_pos (by rw [hwl, h1]), reshapeFlat,
        if_pos (by simpa [NPArr.flat, hnbeq] using hwl)]
      rfl
    · rw [if_neg (by rw [hwl]; exact h1)]
  · intro sm m hm hsm hrows
    obtain ⟨hshape, hrows'⟩ := hmatshape sm m (le_of_lt hm) hsm hrows
    refine ⟨scaleMatL (fs.dx : ℝ) (matMulL (transposeL sm) fs.basis), ?_, hshape,
      fun row hrow => by rw [hrows' row hrow, hnbeq]⟩
    rw [signal_coeffs_mat, if_neg (by rw [hshape]; exact Nat.ne_of_gt hm)]
  · intro sm m hm hsm hrows
    obtain ⟨hshape, hrows'⟩ := hmatshape sm m hm hsm hrows
    constructor
    · rintro ⟨w, hw⟩
      by_contra hm1
      rw [signal_coeffs_mat, if_neg (by rw [hshape]; exact hm1)] at hw
      simp at hw
    · intro hm1
      subst hm1
      obtain ⟨row, hrow⟩ := List.length_eq_one.mp hshape
      refine ⟨row, ?_⟩
      rw [signal_coeffs_mat, if_pos (by rw [hshape]), reshapeFlat]
      have hflat : (NPArr.mat (scaleMatL (fs.dx : ℝ)
          (matMulL (transposeL sm) fs.basis))).flat = row := by
        rw [NPArr.flat, hrow]
        simp
      rw [if_pos (by rw [hflat, hnbeq]; exact hrows' row (by rw [hrow]; simp)), hflat]

/-- Witness for C9 at `sampleFS` (2x2 identity `U`, `n_basis = 2`). -/
theorem C9_signal_coeffs_squeeze_witness :
    (∀ s : List ℝ, s.length = [[(1 : ℝ), 0], [0, 1]].length →
      ∃ w : List ℝ, sampleFS.signal_coeffs (NPArr.vec s) = some (NPArr.vec w)
        ∧ w.length = sampleFS.n_basis)
    ∧ (∀ (sm : List (List ℝ)) (m : ℕ), 1 < m → sm.length = [[(1 : ℝ), 0], [0, 1]].length →
        (∀ row ∈ sm, row.length = m) →
        ∃ r : List (List ℝ), sampleFS.signal_coeffs (NPArr.mat sm) = some (NPArr.mat r)
          ∧ r.length = m ∧ ∀ row ∈ r, row.length = sampleFS.n_basis)
    ∧ (∀ (sm : List (List ℝ)) (m : ℕ), 1 ≤ m → sm.length = [[(1 : ℝ), 0], [0, 1]].length →
        (∀ row ∈ sm, row.length = m) →
        ((∃ w : List ℝ, sampleFS.signal_coeffs (NPArr.mat sm) = some (NPArr.vec w))
          ↔ m = 1)) :=
  C9_signal_coeffs_squeeze (fun _ _ => (1 : ℝ)) 1 [] 2 2 1 1 [[1, 0], [0, 1]] [3, 2]
    sampleFS rfl
    (by intro row hrow; simp only [List.mem_cons, List.not_mem_nil, or_false] at hrow;
        rcases hrow with h | h <;> subst h <;> rfl)
    (by norm_num) (by simp)
